import Mathlib

/-!
Verification of the S3-backed SFTP driver (`s3driver.go`).

The Go source is shallowly embedded: strings are handled through `List Char`
(via `String.toList` / `List.asString`), Go's `strings` helpers and
`path/filepath.Clean` are reimplemented below, and every driver operation is a
pure Lean function over an explicit storage backend.  Storage interactions are
modelled by a record of response functions plus an explicit trace of the calls
an operation issues.
-/

namespace SftpS3

/-- Error values surfaced by the driver: `notExist` models `os.ErrNotExist`,
`forbidden` the blocked-download rejection, `storage` an arbitrary error coming
back from the storage client, `noPage` a listing run that consumed every
provided page while the store still reported truncation. -/
inductive Err where
  | notExist
  | forbidden
  | storage (code : Nat)
  | noPage
deriving DecidableEq, Repr

/-! ## Go `strings` helpers on `List Char` -/

/-- Go `strings.TrimLeft(s, "/")` on the character list: drop every leading `'/'`. -/
def trimLeftSlashes : List Char → List Char
  | [] => []
  | c :: rest => if c = '/' then trimLeftSlashes rest else c :: rest

/-- Go `strings.TrimRight(s, "/")` on the character list. -/
def trimRightSlashes (l : List Char) : List Char :=
  (trimLeftSlashes l.reverse).reverse

/-- Split a character list at every `'/'`; the separators are dropped and the
(possibly empty) segments between them are kept, mirroring how
`path/filepath.Clean` walks its input separator by separator. -/
def splitSlash : List Char → List (List Char)
  | [] => [[]]
  | c :: rest =>
    match splitSlash rest with
    | [] => [[c]]
    | s :: ss => if c = '/' then [] :: s :: ss else (c :: s) :: ss

/-- One step of `filepath.Clean`'s segment processing.  `acc` is the stack of
already-emitted segments, most recent first.  Empty and `"."` segments are
dropped; `".."` pops a previous segment when possible, is dropped at the root
of a rooted path, and is kept for an unrooted path that cannot backtrack
further; every other segment is pushed. -/
def cleanStep (rooted : Bool) (acc : List (List Char)) (seg : List Char) : List (List Char) :=
  if seg = [] ∨ seg = ['.'] then acc
  else if seg = ['.', '.'] then
    match acc with
    | [] => if rooted then [] else [['.', '.']]
    | top :: rest => if top = ['.', '.'] then ['.', '.'] :: top :: rest else rest
  else seg :: acc

/-- Join segments with a single `'/'` between consecutive ones, mirroring the
output buffer of `filepath.Clean` (which writes a separator before every
appended segment except the first). -/
def joinSlash : List (List Char) → List Char
  | [] => []
  | [s] => s
  | s :: rest => s ++ '/' :: joinSlash rest

/-- Go `path/filepath.Clean` (Unix rules, separator `'/'`) on a character list:
lexically resolve `"."` and `".."` segments and collapse repeated separators;
the empty path cleans to `"."`, a fully-cancelled rooted path to `"/"`, a
fully-cancelled unrooted path to `"."`. -/
def cleanL (l : List Char) : List Char :=
  if l = [] then ['.']
  else
    let rooted := l.head? = some '/'
    let segs := ((splitSlash l).foldl (cleanStep rooted) []).reverse
    if segs = [] then (if rooted then ['/'] else ['.'])
    else (if rooted then ['/'] else []) ++ joinSlash segs

/-! ## Go `strings` / `path/filepath` helpers on `String` -/

/-- Go `strings.HasPrefix s pre`. -/
def strHasPrefix (s pre : String) : Bool :=
  pre.toList.isPrefixOf s.toList

/-- Go `strings.HasSuffix s suf`. -/
def strHasSuffix (s suf : String) : Bool :=
  suf.toList.isSuffixOf s.toList

/-- Go `strings.TrimLeft s "/"`. -/
def strTrimLeftSlash (s : String) : String :=
  (trimLeftSlashes s.toList).asString

/-- Go `strings.TrimRight s "/"`. -/
def strTrimRightSlash (s : String) : String :=
  (trimRightSlashes s.toList).asString

/-- Go `strings.TrimPrefix s pre`. -/
def strTrimPrefix (s pre : String) : String :=
  if strHasPrefix s pre then (s.toList.drop pre.toList.length).asString else s

/-- Go `strings.TrimSuffix s "/"`: remove one trailing separator if present. -/
def strTrimSuffixSlash (s : String) : String :=
  if strHasSuffix s "/" then s.toList.dropLast.asString else s

/-- Go `path/filepath.Clean` on `String`. -/
def clean (s : String) : String :=
  (cleanL s.toList).asString

/-! ## TranslatePath -/

/-- The function `TranslatePath` from `s3driver.go`: takes the S3 root prefix, the home
directory and a raw path, and returns the cleaned, jailed key together with
the (always-`none`) error slot of the Go signature.  An empty path resolves to
the cleaned prefix+home; an absolute path is cleaned against the prefix alone
and clamped back to the prefix when the cleaned result no longer begins with
it; a relative path is cleaned against prefix+home.  A trailing separator of
the raw path is restored after cleaning, and the final result has its leading
separators trimmed. -/
def TranslatePath (pfx home path : String) : String × Option Err :=
  if path = "" then (clean ("/" ++ pfx ++ "/" ++ home), none)
  else
    let cleanPath :=
      if strHasPrefix path "/" then
        let c := clean (pfx ++ path)
        if !strHasPrefix c pfx then pfx else c
      else
        clean ("/" ++ pfx ++ "/" ++ home ++ clean ("/" ++ path))
    let cleanPath2 := if strHasSuffix path "/" then cleanPath ++ "/" else cleanPath
    (strTrimLeftSlash cleanPath2, none)

example : TranslatePath "" "sftp/test_user" "file" = ("sftp/test_user/file", none) := by decide
example : TranslatePath "" "sftp/test_user" "dir/" = ("sftp/test_user/dir/", none) := by decide
example : TranslatePath "" "sftp/test_user" "dir/file" = ("sftp/test_user/dir/file", none) := by
  decide
example : TranslatePath "" "sftp/test_user" "dir/../some_other_file"
    = ("sftp/test_user/some_other_file", none) := by decide
example : TranslatePath "sftp" "/test_user" "dir/../../some_escape_attempt"
    = ("sftp/test_user/some_escape_attempt", none) := by decide
example : TranslatePath "sftp" "/test_user" "///dir/./../../../another_escape_attempt"
    = ("sftp", none) := by decide

/-! ## Storage model

The S3 client is modelled as a record of pure response functions; each driver
operation additionally reports the exact sequence of storage calls it issued,
so that call-trace claims (exactly one copy, no delete after a failed copy,
zero storage calls on a blocked download, …) are statable. -/

/-- One object of a listing response: key, size and last-modified time
(timestamps are modelled as integers). -/
structure S3Object where
  key : String
  size : Int
  lastModified : Int
deriving DecidableEq, Repr

/-- The fields of `s3.ListObjectsV2Output` the driver reads. -/
structure ListOutput where
  keyCount : Int
  contents : List S3Object
  commonPrefixes : List String := []
  isTruncated : Bool := false
deriving DecidableEq, Repr

/-- The fields of `s3.ListObjectsV2Input` the driver sets (`pfx` stands for
the Go field `Prefix`). -/
structure ListInput where
  bucket : String
  pfx : String
  maxKeys : Option Int := none
  delimiter : Option String := none
  continuationToken : Option String := none
deriving DecidableEq, Repr

/-- The input `s3.DeleteObjectInput`. -/
structure DeleteInput where
  bucket : String
  key : String
deriving DecidableEq, Repr

/-- The input `s3.CopyObjectInput` as the driver fills it. -/
structure CopyInput where
  bucket : String
  copySource : String
  key : String
  serverSideEncryption : String
deriving DecidableEq, Repr

/-- The input `s3.GetObjectInput`. -/
structure GetInput where
  bucket : String
  key : String
deriving DecidableEq, Repr

/-- The body stream of `s3.GetObjectOutput`, modelled as the object's bytes. -/
structure GetOutput where
  body : List Nat
deriving DecidableEq, Repr

/-- The `S3` interface of `s3driver.go`, as pure response functions. -/
structure S3API where
  listObjectsV2 : ListInput → Except Err ListOutput
  deleteObject : DeleteInput → Except Err Unit
  copyObject : CopyInput → Except Err Unit
  getObject : GetInput → Except Err GetOutput

/-- A record of one storage call issued by the driver. -/
inductive S3Call where
  | listObjectsV2 (input : ListInput)
  | deleteObject (input : DeleteInput)
  | copyObject (input : CopyInput)
  | getObject (input : GetInput)
deriving DecidableEq, Repr

/-- The driver's immutable configuration (`S3Driver` in the source, minus the
embedded client, which is passed to each operation explicitly). -/
structure S3Driver where
  bucket : String
  pfx : String
  homePath : String
deriving DecidableEq, Repr

/-- The `fileInfo` value the driver synthesizes (name, size, modification
time, and the `os.ModeDir` bit). -/
structure fileInfo where
  name : String
  size : Int
  mtime : Int
  isDir : Bool
deriving DecidableEq, Repr

/-! ## Driver operations -/

/-- The method `Stat` from `s3driver.go`: translate the path, list with the translated
key as prefix capped at one result, report `notExist` on an empty response,
otherwise synthesize a `fileInfo` from the first returned object; the entry is
a directory exactly when that object's key ends in `"/"`, in which case the
trailing separators are trimmed from the reported name.  (When the response
has a non-empty key count but a nil contents slice the Go code would fault on
the index; the model returns `notExist` there.) -/
def Stat (api : S3API) (d : S3Driver) (path : String) : Except Err fileInfo :=
  match TranslatePath d.pfx d.homePath path with
  | (_, some e) => .error e
  | (localPath, none) =>
    match api.listObjectsV2 { bucket := d.bucket, pfx := localPath, maxKeys := some 1 } with
    | .error e => .error e
    | .ok resp =>
      if resp.contents = [] ∨ resp.keyCount = 0 then .error .notExist
      else
        match resp.contents with
        | [] => .error .notExist
        | o :: _ =>
          .ok { name := if strHasSuffix o.key "/" then strTrimRightSlash localPath else localPath
                size := o.size
                mtime := o.lastModified
                isDir := strHasSuffix o.key "/" }

/-- The method `DeleteDir` from `s3driver.go`: translate the path and issue a single
`DeleteObject` for the translated key; the call trace is returned alongside. -/
def DeleteDir (api : S3API) (d : S3Driver) (path : String) :
    Except Err Unit × List S3Call :=
  match TranslatePath d.pfx d.homePath path with
  | (_, some e) => (.error e, [])
  | (translatedPath, none) =>
    (api.deleteObject { bucket := d.bucket, key := translatedPath },
     [.deleteObject { bucket := d.bucket, key := translatedPath }])

/-- The method `DeleteFile` from `s3driver.go`: textually the same body as `DeleteDir`. -/
def DeleteFile (api : S3API) (d : S3Driver) (path : String) :
    Except Err Unit × List S3Call :=
  match TranslatePath d.pfx d.homePath path with
  | (_, some e) => (.error e, [])
  | (translatedPath, none) =>
    (api.deleteObject { bucket := d.bucket, key := translatedPath },
     [.deleteObject { bucket := d.bucket, key := translatedPath }])

/-- The method `Rename` from `s3driver.go`: translate both paths, copy the old key to the
new key (source written `bucket/oldKey`, AES256 server-side encryption), and
only if the copy succeeded delete the old key; the first error aborts the
sequence.  The issued storage calls are traced. -/
def Rename (api : S3API) (d : S3Driver) (oldpath newpath : String) :
    Except Err Unit × List S3Call :=
  match TranslatePath d.pfx d.homePath oldpath with
  | (_, some e) => (.error e, [])
  | (translatedOldpath, none) =>
    match TranslatePath d.pfx d.homePath newpath with
    | (_, some e) => (.error e, [])
    | (translatedNewpath, none) =>
      let copyInput : CopyInput :=
        { bucket := d.bucket
          copySource := d.bucket ++ "/" ++ translatedOldpath
          key := translatedNewpath
          serverSideEncryption := "AES256" }
      match api.copyObject copyInput with
      | .error e => (.error e, [.copyObject copyInput])
      | .ok _ =>
        let deleteInput : DeleteInput := { bucket := d.bucket, key := translatedOldpath }
        match api.deleteObject deleteInput with
        | .error e => (.error e, [.copyObject copyInput, .deleteObject deleteInput])
        | .ok _ => (.ok (), [.copyObject copyInput, .deleteObject deleteInput])

/-- The object entries of one listing page, as `ListDir` processes them: a key
equal to the queried prefix is skipped, every other key yields a
non-directory entry named by the key with the prefix trimmed. -/
def pageFiles (pfx : String) : List S3Object → List fileInfo
  | [] => []
  | o :: rest =>
    if o.key = pfx then pageFiles pfx rest
    else { name := strTrimPrefix o.key pfx
           size := o.size
           mtime := o.lastModified
           isDir := false } :: pageFiles pfx rest

/-- The common-prefix entries of one listing page, as `ListDir` processes
them: each grouping yields a directory entry with placeholder size `4096` and
placeholder modification time `Unix(1, 0)`. -/
def pageDirs (pfx : String) : List String → List fileInfo
  | [] => []
  | p :: rest =>
    { name := strTrimSuffixSlash (strTrimPrefix p pfx)
      size := 4096
      mtime := 1
      isDir := true } :: pageDirs pfx rest

/-- The pagination loop of `ListDir`: the store's successive responses are
supplied as the list `pages`, one entry per `ListObjectsV2` call; the loop
accumulates each page's entries and stops at the first non-truncated page.
Running out of supplied responses while the store still reports truncation is
modelled as the `noPage` error. -/
def listDirLoop (pfx : String) : List (Except Err ListOutput) → Except Err (List fileInfo)
  | [] => .error .noPage
  | resp :: rest =>
    match resp with
    | .error e => .error e
    | .ok page =>
      let entries := pageFiles pfx page.contents ++ pageDirs pfx page.commonPrefixes
      if page.isTruncated then
        match listDirLoop pfx rest with
        | .error e => .error e
        | .ok more => .ok (entries ++ more)
      else .ok entries

/-- The method `ListDir` from `s3driver.go`: translate the path, force a trailing
separator on the prefix if absent, and run the pagination loop over the
store's responses. -/
def ListDir (d : S3Driver) (pages : List (Except Err ListOutput)) (path : String) :
    Except Err (List fileInfo) :=
  match TranslatePath d.pfx d.homePath path with
  | (_, some e) => .error e
  | (p, none) =>
    let pfx := if strHasSuffix p "/" then p else p ++ "/"
    listDirLoop pfx pages

/-- The host portion of a recorded caller origin, with the port stripped:
everything before the first `':'`. -/
def hostOf (origin : String) : String :=
  (origin.toList.takeWhile (fun c => c ≠ ':')).asString

/-- Modelled from the spec: the download access gate (§4.8) and its
integration into `GetFile` (§4.7) are absent from `src/s3driver.go` — only
their test (`TestGetFileFromBlockedIPAddress`, driving `remoteIPAddress`,
`BLOCK_DOWNLOADS_IP_ADDRESSES` and the injected logger) is present.  Before
anything else, the caller origin's host (port stripped) is checked against the
block set; a match reports a blocked-download event to the injected sink and
fails with `forbidden`, with no storage call issued.  Otherwise the path is
translated and a single `GetObject` returns the body stream.  The result
carries the call trace and the events reported to the sink. -/
def GetFile (api : S3API) (blockSet : List String) (d : S3Driver)
    (origin path : String) : Except Err GetOutput × List S3Call × List String :=
  if hostOf origin ∈ blockSet then
    (.error .forbidden, [], ["blocked download attempt"])
  else
    match TranslatePath d.pfx d.homePath path with
    | (_, some e) => (.error e, [], [])
    | (localPath, none) =>
      let input : GetInput := { bucket := d.bucket, key := localPath }
      match api.getObject input with
      | .error e => (.error e, [.getObject input], [])
      | .ok obj => (.ok obj, [.getObject input], [])

/-! ## Lemmas about the string helpers -/

/-- Bridge to the library: the boolean `isPrefixOf` agrees with the prefix
relation. -/
theorem isPrefixOf_iff_isPre (l m : List Char) : l.isPrefixOf m = true ↔ l <+: m :=
  List.isPrefixOf_iff_prefix

/-- The empty list is a prefix of every list. -/
theorem nil_isPre (l : List Char) : [] <+: l :=
  List.nil_prefix

theorem nil_isPrefixOf (l : List Char) : List.isPrefixOf ([] : List Char) l = true := by
  simp [isPrefixOf_iff_isPre]

theorem slash_isPrefixOf_iff (l : List Char) :
    List.isPrefixOf ['/'] l = true ↔ l.head? = some '/' := by
  cases l with
  | nil => decide
  | cons c t =>
    rw [isPrefixOf_iff_isPre, List.cons_prefix_cons]
    simp [nil_isPre, eq_comm]

theorem toList_eq_nil_iff (s : String) : s.toList = [] ↔ s = "" := by
  rw [String.ext_iff]
  rfl

theorem trimLeftSlashes_of_head_ne (l : List Char) (h : l.head? ≠ some '/') :
    trimLeftSlashes l = l := by
  cases l with
  | nil => rfl
  | cons c t =>
    have hc : c ≠ '/' := by
      intro hc
      exact h (by simp [hc])
    simp [trimLeftSlashes, hc]

theorem trimLeftSlashes_head_ne (l : List Char) {c : Char} {t : List Char}
    (h : trimLeftSlashes l = c :: t) : c ≠ '/' := by
  induction l with
  | nil => simp [trimLeftSlashes] at h
  | cons a r ih =>
    by_cases ha : a = '/'
    · exact ih (by simpa [trimLeftSlashes, ha] using h)
    · rw [trimLeftSlashes, if_neg ha] at h
      injection h with h1 h2
      exact h1 ▸ ha

theorem trimLeftSlashes_suffix (l : List Char) : trimLeftSlashes l <:+ l := by
  induction l with
  | nil => simp [trimLeftSlashes]
  | cons c t ih =>
    by_cases hc : c = '/'
    · rw [trimLeftSlashes, if_pos hc]
      exact ih.trans (List.suffix_cons c t)
    · rw [trimLeftSlashes, if_neg hc]

theorem getLast?_append_right (x y : List Char) (hy : y ≠ []) :
    (x ++ y).getLast? = y.getLast? := by
  rcases List.eq_nil_or_concat' y with rfl | ⟨y', a, rfl⟩
  · exact absurd rfl hy
  · rw [← List.append_assoc, List.getLast?_concat, List.getLast?_concat]

theorem getLast?_of_suffix {l' l : List Char} (h : l' <:+ l) (hne : l' ≠ []) :
    l.getLast? = l'.getLast? := by
  obtain ⟨t, rfl⟩ := h
  exact getLast?_append_right t l' hne

theorem slash_isSuffixOf_iff (l : List Char) :
    List.isSuffixOf ['/'] l = true ↔ l.getLast? = some '/' := by
  rw [List.isSuffixOf_iff_suffix]
  constructor
  · intro h
    obtain ⟨t, rfl⟩ := h
    exact List.getLast?_concat t
  · intro h
    rcases List.eq_nil_or_concat' l with rfl | ⟨l', a, rfl⟩
    · simp at h
    · rw [List.getLast?_concat] at h
      obtain rfl : a = '/' := by injection h
      exact ⟨l', rfl⟩

theorem strHasSuffix_slash_iff (s : String) :
    strHasSuffix s "/" = true ↔ s.toList.getLast? = some '/' := by
  rw [strHasSuffix]
  exact slash_isSuffixOf_iff s.toList

theorem strHasPrefix_slash_iff (s : String) :
    strHasPrefix s "/" = true ↔ s.toList.head? = some '/' := by
  rw [strHasPrefix]
  exact slash_isPrefixOf_iff s.toList

/-! ## Lemmas about `cleanL` -/

theorem splitSlash_ne_nil (l : List Char) : splitSlash l ≠ [] := by
  cases l with
  | nil => simp [splitSlash]
  | cons c t =>
    rw [splitSlash]
    cases splitSlash t with
    | nil => simp
    | cons s ss =>
      by_cases hc : c = '/' <;> simp [hc]

theorem splitSlash_no_slash (l : List Char) : ∀ s ∈ splitSlash l, '/' ∉ s := by
  induction l with
  | nil =>
    intro s hs
    rw [splitSlash, List.mem_singleton] at hs
    simp [hs]
  | cons c t ih =>
    intro s hs
    rw [splitSlash] at hs
    rcases hsp : splitSlash t with _ | ⟨s0, ss⟩
    · exact absurd hsp (splitSlash_ne_nil t)
    · rw [hsp] at hs
      have hs' : s ∈ (if c = '/' then [] :: s0 :: ss else (c :: s0) :: ss) := hs
      have hmem0 : s0 ∈ splitSlash t := by rw [hsp]; exact List.mem_cons_self s0 ss
      by_cases hc : c = '/'
      · rw [if_pos hc] at hs'
        rcases List.mem_cons.mp hs' with rfl | hs2
        · simp
        · exact ih s (hsp ▸ hs2)
      · rw [if_neg hc] at hs'
        rcases List.mem_cons.mp hs' with rfl | hs2
        · intro hmem
          rcases List.mem_cons.mp hmem with h1 | h2
          · exact hc h1.symm
          · exact ih s0 hmem0 h2
        · exact ih s (by rw [hsp]; exact List.mem_cons_of_mem s0 hs2)

/-- A segment is "good" when it is non-empty and separator-free; the segments
stacked by `cleanStep` are all good. -/
def goodSeg (s : List Char) : Prop := s ≠ [] ∧ '/' ∉ s

theorem cleanStep_good (rooted : Bool) (acc : List (List Char)) (seg : List Char)
    (hacc : ∀ s ∈ acc, goodSeg s) (hseg : '/' ∉ seg) :
    ∀ s ∈ cleanStep rooted acc seg, goodSeg s := by
  intro s hs
  rw [cleanStep.eq_def] at hs
  by_cases h1 : seg = [] ∨ seg = ['.']
  · exact hacc s (by rwa [if_pos h1] at hs)
  · rw [if_neg h1] at hs
    by_cases h2 : seg = ['.', '.']
    · rw [if_pos h2] at hs
      rcases acc with _ | ⟨top, rest⟩
      · have hs' : s ∈ (if rooted then ([] : List (List Char)) else [['.', '.']]) := hs
        rcases rooted with _ | _
        · have hs2 : s ∈ [['.', '.']] := hs'
          rw [List.mem_singleton] at hs2
          exact hs2 ▸ ⟨by simp, by decide⟩
        · have hs2 : s ∈ ([] : List (List Char)) := hs'
          simp at hs2
      · have hs' : s ∈ (if top = ['.', '.'] then ['.', '.'] :: top :: rest else rest) := hs
        by_cases h3 : top = ['.', '.']
        · rw [if_pos h3] at hs'
          rcases List.mem_cons.mp hs' with rfl | hs2
          · exact ⟨by simp, by decide⟩
          · exact hacc s hs2
        · rw [if_neg h3] at hs'
          exact hacc s (List.mem_cons_of_mem top hs')
    · rw [if_neg h2] at hs
      rcases List.mem_cons.mp hs with rfl | hs2
      · exact ⟨fun h => h1 (Or.inl h), hseg⟩
      · exact hacc s hs2

theorem foldl_cleanStep_good (rooted : Bool) :
    ∀ (segs : List (List Char)) (acc : List (List Char)),
      (∀ s ∈ acc, goodSeg s) → (∀ s ∈ segs, '/' ∉ s) →
      ∀ s ∈ segs.foldl (cleanStep rooted) acc, goodSeg s := by
  intro segs
  induction segs with
  | nil => intro acc hacc _ s hs; exact hacc s hs
  | cons a rest ih =>
    intro acc hacc hsegs s hs
    rw [List.foldl_cons] at hs
    exact ih (cleanStep rooted acc a)
      (cleanStep_good rooted acc a hacc (hsegs a (List.mem_cons_self a rest)))
      (fun x hx => hsegs x (List.mem_cons_of_mem a hx)) s hs

theorem joinSlash_ne_nil (segs : List (List Char)) (hne : segs ≠ [])
    (hgood : ∀ s ∈ segs, goodSeg s) : joinSlash segs ≠ [] := by
  rcases segs with _ | ⟨a, _ | ⟨b, t⟩⟩
  · exact absurd rfl hne
  · exact (hgood a (by simp)).1
  · rw [show joinSlash (a :: b :: t) = a ++ '/' :: joinSlash (b :: t) from rfl]
    simp

theorem joinSlash_getLast (segs : List (List Char)) (hne : segs ≠ [])
    (hgood : ∀ s ∈ segs, goodSeg s) : (joinSlash segs).getLast? ≠ some '/' := by
  induction segs with
  | nil => exact absurd rfl hne
  | cons a rest ih =>
    rcases rest with _ | ⟨b, t⟩
    · rw [show joinSlash [a] = a from rfl]
      obtain ⟨ha, hs⟩ := hgood a (by simp)
      rcases List.eq_nil_or_concat' a with rfl | ⟨a', x, rfl⟩
      · exact absurd rfl ha
      · rw [List.getLast?_concat]
        intro hx
        obtain rfl : x = '/' := by injection hx
        exact hs (by simp)
    · rw [show joinSlash (a :: b :: t) = a ++ '/' :: joinSlash (b :: t) from rfl]
      have hJ : joinSlash (b :: t) ≠ [] :=
        joinSlash_ne_nil (b :: t) (by simp)
          (fun s hs => hgood s (List.mem_cons_of_mem a hs))
      rw [getLast?_append_right a ('/' :: joinSlash (b :: t)) (by simp)]
      rw [show ('/' :: joinSlash (b :: t)) = ['/'] ++ joinSlash (b :: t) from rfl]
      rw [getLast?_append_right ['/'] (joinSlash (b :: t)) hJ]
      exact ih (by simp) (fun s hs => hgood s (List.mem_cons_of_mem a hs))

theorem cleanL_segs_good (l : List Char) (rooted : Bool) :
    ∀ s ∈ ((splitSlash l).foldl (cleanStep rooted) []).reverse, goodSeg s := by
  intro s hs
  rw [List.mem_reverse] at hs
  exact foldl_cleanStep_good rooted (splitSlash l) [] (by simp)
    (splitSlash_no_slash l) s hs

theorem cleanL_head_of_rooted (l : List Char) (h : l.head? = some '/') :
    (cleanL l).head? = some '/' := by
  have hne : l ≠ [] := by intro h0; rw [h0] at h; simp at h
  rw [cleanL, if_neg hne]
  simp only [h]
  split
  · simp
  · simp

theorem cleanL_eq (l : List Char) (hne : l ≠ []) :
    cleanL l =
      (if ((splitSlash l).foldl (cleanStep (decide (l.head? = some '/'))) []).reverse = []
       then (if l.head? = some '/' then ['/'] else ['.'])
       else (if l.head? = some '/' then ['/'] else []) ++
         joinSlash ((splitSlash l).foldl (cleanStep (decide (l.head? = some '/'))) []).reverse) := by
  rw [cleanL, if_neg hne]

theorem cleanL_ends_slash (l : List Char) (h : (cleanL l).getLast? = some '/') :
    cleanL l = ['/'] := by
  by_cases hne : l = []
  · rw [hne] at h ⊢
    simp [cleanL] at h
  · rw [cleanL_eq l hne] at h ⊢
    rcases hsegs : ((splitSlash l).foldl (cleanStep (decide (l.head? = some '/'))) []).reverse
      with _ | ⟨s0, ss⟩
    · rw [hsegs] at h
      rw [if_pos rfl] at h ⊢
      by_cases hp : l.head? = some '/'
      · rw [if_pos hp]
      · rw [if_neg hp] at h
        simp at h
  -- non-empty segment list: the joined output cannot end in a separator
    · exfalso
      have hgood : ∀ s ∈ s0 :: ss, goodSeg s := by
        rw [← hsegs]
        exact cleanL_segs_good l _
      have hJne : joinSlash (s0 :: ss) ≠ [] := joinSlash_ne_nil _ (by simp) hgood
      have hJ : (joinSlash (s0 :: ss)).getLast? ≠ some '/' :=
        joinSlash_getLast _ (by simp) hgood
      rw [hsegs, if_neg (by simp : ¬(s0 :: ss = []))] at h
      by_cases hp : l.head? = some '/'
      · rw [if_pos hp] at h
        rw [getLast?_append_right _ _ hJne] at h
        exact hJ h
      · rw [if_neg hp, List.nil_append] at h
        exact hJ h

/-! ## Lemmas about `TranslatePath` -/

theorem strHasPrefix_empty (s : String) : strHasPrefix s "" = true := by
  rw [strHasPrefix]
  exact nil_isPrefixOf s.toList

theorem strHasPrefix_self (s : String) : strHasPrefix s s = true := by
  rw [strHasPrefix, isPrefixOf_iff_isPre]

theorem strHasPrefix_append_right (s u pre : String) (h : strHasPrefix s pre = true) :
    strHasPrefix (s ++ u) pre = true := by
  rw [strHasPrefix, isPrefixOf_iff_isPre] at h ⊢
  exact h.trans (List.prefix_append s.toList u.toList)

theorem strTrimLeftSlash_of_prefixed (pre s : String) (h0 : pre ≠ "")
    (hp : strHasPrefix pre "/" = false) (h : strHasPrefix s pre = true) :
    strTrimLeftSlash s = s := by
  have hpreL : pre.toList ≠ [] := fun hh => h0 ((toList_eq_nil_iff pre).mp hh)
  have hhead : pre.toList.head? ≠ some '/' := by
    intro hh
    exact absurd ((strHasPrefix_slash_iff pre).mpr hh) (by simp [hp])
  have h' : pre.toList <+: s.toList :=
    Iff.mp (isPrefixOf_iff_isPre _ _) (by rwa [strHasPrefix] at h)
  obtain ⟨t, ht⟩ := h'
  have hshead : s.toList.head? = pre.toList.head? := by
    rw [← ht]
    cases hpre2 : pre.toList with
    | nil => exact absurd hpre2 hpreL
    | cons c u => simp
  rw [strTrimLeftSlash, trimLeftSlashes_of_head_ne _ (by rw [hshead]; exact hhead),
    String.asString_toList]

/-- Trimming leading separators never leaves a leading separator. -/
theorem strTrimLeftSlash_no_leading (s : String) :
    strHasPrefix (strTrimLeftSlash s) "/" = false := by
  have htl : (strTrimLeftSlash s).toList = trimLeftSlashes s.toList := by
    rw [strTrimLeftSlash, List.toList_asString]
  cases hb : strHasPrefix (strTrimLeftSlash s) "/"
  · rfl
  · exfalso
    have hh := (strHasPrefix_slash_iff _).mp hb
    rw [htl] at hh
    cases hT : trimLeftSlashes s.toList with
    | nil => rw [hT] at hh; simp at hh
    | cons c t =>
      rw [hT] at hh
      simp only [List.head?_cons, Option.some.injEq] at hh
      exact trimLeftSlashes_head_ne s.toList hT hh

/-- If a string can only end in a separator by being exactly `"/"`, then its
left-trimmed form does not end in a separator. -/
theorem strTrimLeftSlash_no_trailing (s : String)
    (hs : s.toList.getLast? = some '/' → s.toList = ['/']) :
    strHasSuffix (strTrimLeftSlash s) "/" = false := by
  have htl : (strTrimLeftSlash s).toList = trimLeftSlashes s.toList := by
    rw [strTrimLeftSlash, List.toList_asString]
  cases hb : strHasSuffix (strTrimLeftSlash s) "/"
  · rfl
  · exfalso
    have hh := (strHasSuffix_slash_iff _).mp hb
    rw [htl] at hh
    have hTne : trimLeftSlashes s.toList ≠ [] := by
      intro h0
      rw [h0] at hh
      simp at hh
    have hlast : s.toList.getLast? = some '/' := by
      rw [getLast?_of_suffix (trimLeftSlashes_suffix s.toList) hTne]
      exact hh
    have := hs hlast
    rw [this] at hTne hh
    exact hTne (by rw [trimLeftSlashes, if_pos rfl]; rfl)

/-- Left-trimming a string that ends in a separator yields the empty string or
a string that still ends in the separator. -/
theorem strTrimLeftSlash_append_slash (s : String) :
    strTrimLeftSlash (s ++ "/") = ""
    ∨ strHasSuffix (strTrimLeftSlash (s ++ "/")) "/" = true := by
  have htl : (strTrimLeftSlash (s ++ "/")).toList = trimLeftSlashes (s.toList ++ ['/']) := by
    rw [strTrimLeftSlash, List.toList_asString]
    rfl
  cases hT : trimLeftSlashes (s.toList ++ ['/']) with
  | nil =>
    left
    rw [strTrimLeftSlash]
    rw [show (s ++ "/").toList = s.toList ++ ['/'] from rfl, hT]
    rfl
  | cons c t =>
    right
    rw [strHasSuffix_slash_iff, htl]
    rw [← getLast?_of_suffix (trimLeftSlashes_suffix (s.toList ++ ['/'])) (by rw [hT]; simp)]
    exact List.getLast?_concat s.toList

/-- The `clean` output, read as a character list. -/
theorem toList_clean (s : String) : (clean s).toList = cleanL s.toList := by
  rw [clean, List.toList_asString]

theorem clean_ends_slash (s : String)
    (h : (clean s).toList.getLast? = some '/') : (clean s).toList = ['/'] := by
  rw [toList_clean] at h ⊢
  exact cleanL_ends_slash s.toList h

/-- Case equation: the empty raw path. -/
theorem translatePath_empty (pfx home : String) :
    TranslatePath pfx home "" = (clean ("/" ++ pfx ++ "/" ++ home), none) := by
  rw [TranslatePath, if_pos rfl]

/-- Case equation: an absolute raw path whose cleaned concatenation still
begins with the root prefix (no clamping). -/
theorem translatePath_abs_noclamp (pfx home path : String)
    (habs : strHasPrefix path "/" = true)
    (hc : strHasPrefix (clean (pfx ++ path)) pfx = true) :
    TranslatePath pfx home path =
      (strTrimLeftSlash
        (if strHasSuffix path "/" then clean (pfx ++ path) ++ "/" else clean (pfx ++ path)),
       none) := by
  have hne : path ≠ "" := by
    intro h0
    rw [h0] at habs
    exact absurd habs (by decide)
  rw [TranslatePath, if_neg hne]
  simp [habs, hc]

/-- Case equation: an absolute raw path whose cleaned concatenation no longer
begins with the root prefix (the clamp to the root). -/
theorem translatePath_abs_clamp (pfx home path : String)
    (habs : strHasPrefix path "/" = true)
    (hc : strHasPrefix (clean (pfx ++ path)) pfx = false) :
    TranslatePath pfx home path =
      (strTrimLeftSlash (if strHasSuffix path "/" then pfx ++ "/" else pfx), none) := by
  have hne : path ≠ "" := by
    intro h0
    rw [h0] at habs
    exact absurd habs (by decide)
  rw [TranslatePath, if_neg hne]
  simp [habs, hc]

/-- Case equation: a relative, non-empty raw path. -/
theorem translatePath_rel (pfx home path : String) (hne : path ≠ "")
    (habs : strHasPrefix path "/" = false) :
    TranslatePath pfx home path =
      (strTrimLeftSlash
        (if strHasSuffix path "/"
         then clean ("/" ++ pfx ++ "/" ++ home ++ clean ("/" ++ path)) ++ "/"
         else clean ("/" ++ pfx ++ "/" ++ home ++ clean ("/" ++ path))),
       none) := by
  rw [TranslatePath, if_neg hne]
  simp [habs]

/-- For a non-empty raw path the translated key is the left-trimming of either
a `clean` result or the raw root prefix, with the trailing separator restored
first. -/
theorem translatePath_fst_cases (pfx home path : String) (hne : path ≠ "") :
    ∃ CP : String,
      ((∃ X, CP = clean X) ∨ CP = pfx)
      ∧ (TranslatePath pfx home path).1
          = strTrimLeftSlash (if strHasSuffix path "/" then CP ++ "/" else CP) := by
  by_cases habs : strHasPrefix path "/" = true
  · by_cases hc : strHasPrefix (clean (pfx ++ path)) pfx = true
    · exact ⟨clean (pfx ++ path), Or.inl ⟨_, rfl⟩,
        by rw [translatePath_abs_noclamp pfx home path habs hc]⟩
    · exact ⟨pfx, Or.inr rfl,
        by rw [translatePath_abs_clamp pfx home path habs (by simpa using hc)]⟩
  · exact ⟨clean ("/" ++ pfx ++ "/" ++ home ++ clean ("/" ++ path)), Or.inl ⟨_, rfl⟩,
      by rw [translatePath_rel pfx home path hne (by simpa using habs)]⟩

theorem translate_snd_none (pfx home path : String) :
    (TranslatePath pfx home path).2 = none := by
  rw [TranslatePath]
  by_cases h : path = "" <;> simp [h]

/-! ## Claims about `TranslatePath` -/

/-- The spec's notion of a key lying within, or equalling, the root prefix:
equal to it, or strictly below it as a path. -/
def withinPrefix (root key : String) : Bool :=
  key == root || strHasPrefix key (root ++ "/")

/-- Claim C1, counterexample.  The claim that for every absolute escaping
`rawPath` the result is exactly `rootPrefix`, and that every returned key lies
within or equals `rootPrefix`, is false on the code: (i) the string-prefix
clamp check admits the sibling key `sftpx`, which is neither `sftp` nor below
it; (ii) an escaping absolute path ending in the separator is clamped to
`sftp/`, not exactly `sftp`; (iii) with a root prefix that itself starts with
the separator, the final left-trimming moves the result outside the prefix. -/
theorem translatePath_jail_cex :
    ((TranslatePath "sftp" "test_user" "/../sftpx").1 = "sftpx"
      ∧ withinPrefix "sftp" "sftpx" = false)
    ∧ ((TranslatePath "sftp" "test_user" "/../").1 = "sftp/"
      ∧ strHasPrefix (clean ("sftp" ++ "/../")) "sftp" = false
      ∧ "sftp/" ≠ "sftp")
    ∧ ((TranslatePath "/a" "home" "/b").1 = "a/b"
      ∧ withinPrefix "/a" "a/b" = false) := by
  decide

/-- Claim C1, amended.  For absolute raw paths, with a root prefix that does not
itself begin with the separator: the translated key always begins with the
root prefix *as a string* (it may still be a sibling such as `sftpx`), no
error is ever returned, and when the cleaned concatenation fails the
string-prefix check the key is exactly the root prefix, with the raw path's
trailing separator restored on it. -/
theorem translatePath_absolute_confined (pfx home path : String)
    (habs : strHasPrefix path "/" = true) (hpfx : strHasPrefix pfx "/" = false) :
    strHasPrefix (TranslatePath pfx home path).1 pfx = true
    ∧ (TranslatePath pfx home path).2 = none
    ∧ (strHasPrefix (clean (pfx ++ path)) pfx = false →
        (TranslatePath pfx home path).1
          = (if strHasSuffix path "/" then pfx ++ "/" else pfx)) := by
  refine ⟨?_, translate_snd_none pfx home path, ?_⟩
  · by_cases hc : strHasPrefix (clean (pfx ++ path)) pfx = true
    · rw [translatePath_abs_noclamp pfx home path habs hc]
      by_cases hp0 : pfx = ""
      · rw [hp0]
        exact strHasPrefix_empty _
      · have hpre : strHasPrefix
            (if strHasSuffix path "/" then clean (pfx ++ path) ++ "/" else clean (pfx ++ path))
            pfx = true := by
          cases hts : strHasSuffix path "/"
          · simpa [hts] using hc
          · simp only [hts, if_pos]
            exact strHasPrefix_append_right _ _ _ hc
        rw [strTrimLeftSlash_of_prefixed pfx _ hp0 hpfx hpre]
        exact hpre
    · have hc2 : strHasPrefix (clean (pfx ++ path)) pfx = false := by simpa using hc
      rw [translatePath_abs_clamp pfx home path habs hc2]
      have hp0 : pfx ≠ "" := by
        intro h0
        rw [h0] at hc2
        simp [strHasPrefix_empty] at hc2
      have hpre : strHasPrefix
          (if strHasSuffix path "/" then pfx ++ "/" else pfx) pfx = true := by
        cases hts : strHasSuffix path "/"
        · simpa [hts] using strHasPrefix_self pfx
        · simp only [hts, if_pos]
          exact strHasPrefix_append_right _ _ _ (strHasPrefix_self pfx)
      rw [strTrimLeftSlash_of_prefixed pfx _ hp0 hpfx hpre]
      exact hpre
  · intro hc
    rw [translatePath_abs_clamp pfx home path habs hc]
    have hp0 : pfx ≠ "" := by
      intro h0
      rw [h0] at hc
      simp [strHasPrefix_empty] at hc
    have hpre : strHasPrefix
        (if strHasSuffix path "/" then pfx ++ "/" else pfx) pfx = true := by
      cases hts : strHasSuffix path "/"
      · simpa [hts] using strHasPrefix_self pfx
      · simp only [hts, if_pos]
        exact strHasPrefix_append_right _ _ _ (strHasPrefix_self pfx)
    rw [strTrimLeftSlash_of_prefixed pfx _ hp0 hpfx hpre]

/-- Witness for the amended C1 at a concrete escaping input. -/
theorem translatePath_absolute_confined_witness :
    strHasPrefix "/../../x" "/" = true
    ∧ strHasPrefix "sftp" "/" = false
    ∧ strHasPrefix (TranslatePath "sftp" "test_user" "/../../x").1 "sftp" = true
    ∧ (TranslatePath "sftp" "test_user" "/../../x").1 = "sftp" := by
  have h := translatePath_absolute_confined "sftp" "test_user" "/../../x"
    (by decide) (by decide)
  refine ⟨by decide, by decide, h.1, ?_⟩
  have h3 := h.2.2 (by decide)
  simpa using h3

/-- Claim C2 (confirmed).  `TranslatePath` returns a nil error for every
combination of root prefix, home and raw path: illegal traversal is clamped,
never rejected. -/
theorem translatePath_never_errors (pfx home path : String) :
    (TranslatePath pfx home path).2 = none :=
  translate_snd_none pfx home path

/-- Claim C3, counterexample.  For the empty raw path the code returns the
cleaned `"/" ++ prefix ++ "/" ++ home` *without* trimming leading separators,
so the returned key starts with `/`. -/
theorem translatePath_leading_sep_cex :
    (TranslatePath "sftp" "home" "").1 = "/sftp/home"
    ∧ strHasPrefix (TranslatePath "sftp" "home" "").1 "/" = true := by
  decide

/-- Claim C3, amended.  For every non-empty raw path the translated key has all
leading separators stripped and never starts with the separator; for the
empty raw path the key always *does* start with the separator (that branch
returns before the trimming step). -/
theorem translatePath_leading_sep_amended (pfx home path : String) :
    (path ≠ "" → strHasPrefix (TranslatePath pfx home path).1 "/" = false)
    ∧ (path = "" → strHasPrefix (TranslatePath pfx home path).1 "/" = true) := by
  constructor
  · intro hne
    obtain ⟨CP, -, hfst⟩ := translatePath_fst_cases pfx home path hne
    rw [hfst]
    exact strTrimLeftSlash_no_leading _
  · intro h0
    rw [h0, translatePath_empty]
    rw [strHasPrefix_slash_iff, toList_clean]
    exact cleanL_head_of_rooted _ rfl

/-- Witness for the amended C3 at concrete inputs. -/
theorem translatePath_leading_sep_amended_witness :
    strHasPrefix (TranslatePath "sftp" "home" "dir/file").1 "/" = false
    ∧ strHasPrefix (TranslatePath "sftp" "home" "").1 "/" = true :=
  ⟨(translatePath_leading_sep_amended "sftp" "home" "dir/file").1 (by decide),
   (translatePath_leading_sep_amended "sftp" "home" "").2 rfl⟩

/-- Claim C4, counterexample.  The trailing-separator equivalence fails on the
code: (i) for raw path `""` (which does not end in the separator) with empty
prefix and home, the result is `"/"`, which does; (ii) with a root prefix that
itself ends in the separator, an absolute raw path not ending in the separator
is clamped to that prefix, and the result ends in the separator. -/
theorem translatePath_trailing_sep_cex :
    (strHasSuffix "" "/" = false
      ∧ (TranslatePath "" "" "").1 = "/"
      ∧ strHasSuffix (TranslatePath "" "" "").1 "/" = true)
    ∧ (strHasSuffix "/.." "/" = false
      ∧ (TranslatePath "a/" "home" "/..").1 = "a/"
      ∧ strHasSuffix (TranslatePath "a/" "home" "/..").1 "/" = true) := by
  decide

/-- Claim C4, amended.  For a root prefix not ending in the separator and a
non-empty raw path: a raw path not ending in the separator translates to a key
not ending in the separator, and a raw path ending in the separator translates
to a key that ends in the separator or is empty (the degenerate all-separator
case). -/
theorem translatePath_trailing_sep_amended (pfx home path : String)
    (hpfx : strHasSuffix pfx "/" = false) (hne : path ≠ "") :
    (strHasSuffix path "/" = false →
      strHasSuffix (TranslatePath pfx home path).1 "/" = false)
    ∧ (strHasSuffix path "/" = true →
        ((TranslatePath pfx home path).1 = ""
          ∨ strHasSuffix (TranslatePath pfx home path).1 "/" = true)) := by
  obtain ⟨CP, hCP, hfst⟩ := translatePath_fst_cases pfx home path hne
  have hends : CP.toList.getLast? = some '/' → CP.toList = ['/'] := by
    rcases hCP with ⟨X, hX⟩ | hX
    · rw [hX]
      exact clean_ends_slash X
    · rw [hX]
      intro h
      exact absurd ((strHasSuffix_slash_iff pfx).mpr h) (by simp [hpfx])
  constructor
  · intro hps
    rw [hfst, hps]
    simp only [Bool.false_eq_true, if_false]
    exact strTrimLeftSlash_no_trailing CP hends
  · intro hps
    rw [hfst, hps]
    simp only [if_true]
    exact strTrimLeftSlash_append_slash CP

/-- Witness for the amended C4 at concrete inputs. -/
theorem translatePath_trailing_sep_amended_witness :
    strHasSuffix (TranslatePath "sftp" "home" "dir/file").1 "/" = false
    ∧ ((TranslatePath "sftp" "home" "dir/").1 = ""
        ∨ strHasSuffix (TranslatePath "sftp" "home" "dir/").1 "/" = true) :=
  ⟨(translatePath_trailing_sep_amended "sftp" "home" "dir/file" (by decide) (by decide)).1
      (by decide),
   (translatePath_trailing_sep_amended "sftp" "home" "dir/" (by decide) (by decide)).2
      (by decide)⟩

/-! ## Claims about the driver operations -/

/-- Structure-eta form of a translation result: the error slot is always
`none`. -/
theorem translate_eta (pfx home path : String) :
    TranslatePath pfx home path = ((TranslatePath pfx home path).1, none) := by
  have h : TranslatePath pfx home path
      = ((TranslatePath pfx home path).1, (TranslatePath pfx home path).2) := rfl
  rw [translate_snd_none] at h
  exact h

/-- Decidable equality for `Except` results, used to evaluate the driver
operations on concrete inputs. -/
instance {e a : Type} [DecidableEq e] [DecidableEq a] : DecidableEq (Except e a) := fun x y =>
  match x, y with
  | .error e1, .error e2 =>
    if h : e1 = e2 then isTrue (by rw [h]) else isFalse (fun hh => by injection hh; exact h (by assumption))
  | .error _, .ok _ => isFalse (fun hh => Except.noConfusion hh)
  | .ok _, .error _ => isFalse (fun hh => Except.noConfusion hh)
  | .ok v1, .ok v2 =>
    if h : v1 = v2 then isTrue (by rw [h]) else isFalse (fun hh => by injection hh; exact h (by assumption))

/-- Modelled from the spec: the external object store's prefix-scoped listing
with a result-count cap (§6 outbound contract; glossary).  A listing request
returns, in store order, the stored objects whose keys begin with the
requested prefix, capped at `maxKeys`, with `keyCount` the number of keys
returned. -/
def storeList (objects : List S3Object) : ListInput → Except Err ListOutput :=
  fun input =>
    let matched := objects.filter (fun o => strHasPrefix o.key input.pfx)
    let taken :=
      match input.maxKeys with
      | some n => matched.take n.toNat
      | none => matched
    .ok { keyCount := taken.length, contents := taken }

/-- A concrete storage backend over a fixed object list: listing follows
`storeList`, mutations succeed, downloads fail (unused in the claims that use
this backend). -/
def storeApi (objects : List S3Object) : S3API :=
  { listObjectsV2 := storeList objects
    deleteObject := fun _ => .ok ()
    copyObject := fun _ => .ok ()
    getObject := fun _ => .error (.storage 0) }

/-- Unfolding equation for `Stat`: the translation never errors, so `Stat` is
the listing call followed by the response analysis. -/
theorem Stat_eq (api : S3API) (d : S3Driver) (path : String) :
    Stat api d path =
      (match api.listObjectsV2
          { bucket := d.bucket, pfx := (TranslatePath d.pfx d.homePath path).1,
            maxKeys := some 1 } with
       | .error e => .error e
       | .ok resp =>
         if resp.contents = [] ∨ resp.keyCount = 0 then .error .notExist
         else
           match resp.contents with
           | [] => .error .notExist
           | o :: _ =>
             .ok { name := if strHasSuffix o.key "/"
                           then strTrimRightSlash (TranslatePath d.pfx d.homePath path).1
                           else (TranslatePath d.pfx d.homePath path).1
                   size := o.size
                   mtime := o.lastModified
                   isDir := strHasSuffix o.key "/" }) := by
  rw [Stat, translate_eta d.pfx d.homePath path]

/-- Claim C5 (confirmed).  For any listing response the store returns for the
translated key (capped at one result, with a consistent key count), `Stat`
fails with `notExist` exactly when the response reports zero keys; otherwise
the entry is a directory iff the matched key ends in the separator, the
trailing separators are stripped from the reported name in that case only,
and size and modification time come from the matched object's metadata. -/
theorem stat_spec (api : S3API) (d : S3Driver) (path : String) (resp : ListOutput)
    (hresp : api.listObjectsV2
        { bucket := d.bucket, pfx := (TranslatePath d.pfx d.homePath path).1,
          maxKeys := some 1 } = .ok resp)
    (hcons : resp.keyCount = resp.contents.length) :
    (Stat api d path = .error .notExist ↔ resp.keyCount = 0)
    ∧ (∀ o rest, resp.contents = o :: rest →
        Stat api d path = .ok
          { name := if strHasSuffix o.key "/"
                    then strTrimRightSlash (TranslatePath d.pfx d.homePath path).1
                    else (TranslatePath d.pfx d.homePath path).1
            size := o.size
            mtime := o.lastModified
            isDir := strHasSuffix o.key "/" }) := by
  have hStat2 : Stat api d path =
      (if resp.contents = [] ∨ resp.keyCount = 0 then .error .notExist
       else
         match resp.contents with
         | [] => .error .notExist
         | o :: _ =>
           .ok { name := if strHasSuffix o.key "/"
                         then strTrimRightSlash (TranslatePath d.pfx d.homePath path).1
                         else (TranslatePath d.pfx d.homePath path).1
                 size := o.size
                 mtime := o.lastModified
                 isDir := strHasSuffix o.key "/" }) := by
    rw [Stat_eq, hresp]
  rcases hcontents : resp.contents with _ | ⟨o, rest⟩
  · rw [hcontents] at hcons hStat2
    have hS3 : Stat api d path = .error .notExist := by
      rw [hStat2, if_pos (Or.inl rfl)]
    constructor
    · rw [hS3]
      simp [hcons]
    · intro o rest h0
      exact absurd h0 (by simp)
  · rw [hcontents] at hcons hStat2
    have hkc : ¬(resp.keyCount = 0) := by
      rw [hcons]
      simp only [List.length_cons, Nat.cast_add, Nat.cast_one]
      omega
    have hcond : ¬(o :: rest = [] ∨ resp.keyCount = 0) :=
      not_or.mpr ⟨by simp, hkc⟩
    have hS3 : Stat api d path = .ok
        { name := if strHasSuffix o.key "/"
                  then strTrimRightSlash (TranslatePath d.pfx d.homePath path).1
                  else (TranslatePath d.pfx d.homePath path).1
          size := o.size
          mtime := o.lastModified
          isDir := strHasSuffix o.key "/" } := by
      rw [hStat2, if_neg hcond]
    constructor
    · rw [hS3]
      simp [hkc]
    · intro o2 rest2 h2
      injection h2 with ha hb
      subst ha
      exact hS3

/-- Witness for C5, mirroring the repo's `TestStat`. -/
theorem stat_spec_witness :
    Stat (storeApi [⟨"home/dir/file", 123, 5⟩]) ⟨"bucket", "", "home"⟩ "../../dir/file"
      = .ok { name := "home/dir/file", size := 123, mtime := 5, isDir := false } := by
  have h := stat_spec (storeApi [⟨"home/dir/file", 123, 5⟩]) ⟨"bucket", "", "home"⟩
    "../../dir/file" { keyCount := 1, contents := [⟨"home/dir/file", 123, 5⟩] }
    (by decide) (by decide)
  have h2 := h.2 ⟨"home/dir/file", 123, 5⟩ [] rfl
  rw [h2]
  decide

/-- The copy request `Rename` issues: source `bucket/oldKey`, destination the
new key, AES256 server-side encryption. -/
def renameCopyInput (d : S3Driver) (oldpath newpath : String) : CopyInput :=
  { bucket := d.bucket
    copySource := d.bucket ++ "/" ++ (TranslatePath d.pfx d.homePath oldpath).1
    key := (TranslatePath d.pfx d.homePath newpath).1
    serverSideEncryption := "AES256" }

/-- The delete request `Rename` issues for the old key. -/
def renameDeleteInput (d : S3Driver) (oldpath : String) : DeleteInput :=
  { bucket := d.bucket, key := (TranslatePath d.pfx d.homePath oldpath).1 }

/-- Claim C6 (confirmed).  `Rename` issues exactly one copy call scoped to the
translated keys; on copy failure it returns that error with no delete issued
(the old key untouched); on copy success it issues exactly one delete of the
old translated key and returns the delete's error, if any; no other storage
calls occur in any case. -/
theorem rename_calls (api : S3API) (d : S3Driver) (oldpath newpath : String) :
    (∀ e, api.copyObject (renameCopyInput d oldpath newpath) = .error e →
        Rename api d oldpath newpath
          = (.error e, [.copyObject (renameCopyInput d oldpath newpath)]))
    ∧ (∀ u, api.copyObject (renameCopyInput d oldpath newpath) = .ok u →
        ((∀ e, api.deleteObject (renameDeleteInput d oldpath) = .error e →
            Rename api d oldpath newpath
              = (.error e, [.copyObject (renameCopyInput d oldpath newpath),
                            .deleteObject (renameDeleteInput d oldpath)]))
         ∧ (∀ u2, api.deleteObject (renameDeleteInput d oldpath) = .ok u2 →
            Rename api d oldpath newpath
              = (.ok (), [.copyObject (renameCopyInput d oldpath newpath),
                          .deleteObject (renameDeleteInput d oldpath)])))) := by
  have hR : Rename api d oldpath newpath =
      (match api.copyObject (renameCopyInput d oldpath newpath) with
       | .error e => (.error e, [.copyObject (renameCopyInput d oldpath newpath)])
       | .ok _ =>
         match api.deleteObject (renameDeleteInput d oldpath) with
         | .error e => (.error e, [.copyObject (renameCopyInput d oldpath newpath),
                                   .deleteObject (renameDeleteInput d oldpath)])
         | .ok _ => (.ok (), [.copyObject (renameCopyInput d oldpath newpath),
                              .deleteObject (renameDeleteInput d oldpath)])) := by
    rw [Rename, translate_eta d.pfx d.homePath oldpath, translate_eta d.pfx d.homePath newpath]
    rfl
  refine ⟨fun e he => ?_, fun u hu => ⟨fun e he => ?_, fun u2 hu2 => ?_⟩⟩
  · rw [hR, he]
  · rw [hR, hu, he]
  · rw [hR, hu, hu2]

/-- Witness for C6, mirroring the repo's `TestRename`. -/
theorem rename_calls_witness :
    Rename (storeApi []) ⟨"bucket", "", "home"⟩ "dir/file" "dir/new_file"
      = (.ok (), [.copyObject ⟨"bucket", "bucket/home/dir/file", "home/dir/new_file", "AES256"⟩,
                  .deleteObject ⟨"bucket", "home/dir/file"⟩]) := by
  have h := rename_calls (storeApi []) ⟨"bucket", "", "home"⟩ "dir/file" "dir/new_file"
  have h2 := ((h.2 () rfl).2 () rfl)
  rw [h2]
  decide

/-- Claim C7 (confirmed).  `DeleteDir` and `DeleteFile` are the same function:
each translates the path and issues exactly one delete-object call for the
identical translated key, with no prior existence check (no listing call in
the trace), and they agree on every input and store state. -/
theorem deleteDir_eq_deleteFile (api : S3API) (d : S3Driver) (path : String) :
    DeleteDir api d path = DeleteFile api d path
    ∧ DeleteDir api d path =
        (api.deleteObject
          { bucket := d.bucket, key := (TranslatePath d.pfx d.homePath path).1 },
         [.deleteObject
          { bucket := d.bucket, key := (TranslatePath d.pfx d.homePath path).1 }]) := by
  refine ⟨rfl, ?_⟩
  rw [DeleteDir, translate_eta d.pfx d.homePath path]

/-- Claim C9 (confirmed, spec-modelled).  When the caller origin's host (port
stripped) is in the block set, `GetFile` returns `forbidden`, issues zero
storage calls, and reports the rejection to the injected event sink. -/
theorem getFile_blocked (api : S3API) (blockSet : List String) (d : S3Driver)
    (origin path : String) (hblock : hostOf origin ∈ blockSet) :
    GetFile api blockSet d origin path
      = (.error .forbidden, [], ["blocked download attempt"]) := by
  rw [GetFile, if_pos hblock]

/-- Witness for C9, mirroring the repo's `TestGetFileFromBlockedIPAddress`. -/
theorem getFile_blocked_witness :
    hostOf "1.1.1.1:1234" ∈ ["1.1.1.1"]
    ∧ GetFile (storeApi []) ["1.1.1.1"] ⟨"bucket", "", "home"⟩ "1.1.1.1:1234" "../../dir/file"
        = (.error .forbidden, [], ["blocked download attempt"]) :=
  ⟨by decide,
   getFile_blocked (storeApi []) ["1.1.1.1"] ⟨"bucket", "", "home"⟩ "1.1.1.1:1234"
     "../../dir/file" (by decide)⟩

/-! ## ListDir ordering and marker skipping (C8) -/

/-- Spec-side description of one listing page (§4.2): raw keys equal to the
queried prefix are skipped; every other raw key becomes a non-directory entry
named by the key with the prefix stripped, in store order; then every
common-prefix grouping becomes a directory entry with placeholder metadata, in
store order. -/
def specPageEntries (pfx : String) (page : ListOutput) : List fileInfo :=
  (page.contents.filter (fun o => o.key ≠ pfx)).map
    (fun o => { name := strTrimPrefix o.key pfx
                size := o.size
                mtime := o.lastModified
                isDir := false })
  ++ page.commonPrefixes.map
      (fun p => { name := strTrimSuffixSlash (strTrimPrefix p pfx)
                  size := 4096
                  mtime := 1
                  isDir := true })

/-- Spec-side pagination: concatenate each page's entries, in the order the
store returns the pages, stopping at the first non-truncated page. -/
def specListDirLoop (pfx : String) : List (Except Err ListOutput) → Except Err (List fileInfo)
  | [] => .error .noPage
  | .error e :: _ => .error e
  | .ok page :: rest =>
    if page.isTruncated then
      match specListDirLoop pfx rest with
      | .error e => .error e
      | .ok more => .ok (specPageEntries pfx page ++ more)
    else .ok (specPageEntries pfx page)

theorem pageFiles_eq_filter_map (pfx : String) (os : List S3Object) :
    pageFiles pfx os = (os.filter (fun o => o.key ≠ pfx)).map
      (fun o => { name := strTrimPrefix o.key pfx
                  size := o.size
                  mtime := o.lastModified
                  isDir := false }) := by
  induction os with
  | nil => rfl
  | cons o rest ih =>
    by_cases h : o.key = pfx
    · simp [pageFiles, List.filter_cons, h, ih]
    · simp [pageFiles, List.filter_cons, h, ih]

theorem pageDirs_eq_map (pfx : String) (ps : List String) :
    pageDirs pfx ps = ps.map
      (fun p => { name := strTrimSuffixSlash (strTrimPrefix p pfx)
                  size := 4096
                  mtime := 1
                  isDir := true }) := by
  induction ps with
  | nil => rfl
  | cons p rest ih => simp [pageDirs, ih]

theorem listDirLoop_eq_spec (pfx : String) (pages : List (Except Err ListOutput)) :
    listDirLoop pfx pages = specListDirLoop pfx pages := by
  induction pages with
  | nil => rfl
  | cons resp rest ih =>
    rcases resp with e | page
    · rfl
    · rw [listDirLoop, specListDirLoop, ih, pageFiles_eq_filter_map, pageDirs_eq_map]
      rfl

/-- Claim C8 (confirmed).  `ListDir` equals the spec-side listing: within each
page, the object keys are processed first and the common prefixes after them,
both in store order with no additional sort, and every object whose raw key
equals the queried prefix is filtered out and contributes no entry. -/
theorem listDir_entries (d : S3Driver) (pages : List (Except Err ListOutput)) (path : String) :
    ListDir d pages path
      = specListDirLoop
          (if strHasSuffix (TranslatePath d.pfx d.homePath path).1 "/"
           then (TranslatePath d.pfx d.homePath path).1
           else (TranslatePath d.pfx d.homePath path).1 ++ "/") pages := by
  rw [ListDir, translate_eta d.pfx d.homePath path]
  exact listDirLoop_eq_spec _ pages

/-- Sanity example mirroring the repo's `TestListDir`. -/
example :
    ListDir ⟨"bucket", "", "home"⟩
      [.ok { keyCount := 3
             contents := [⟨"file", 123, 5⟩, ⟨"other_file", 456, 6⟩]
             commonPrefixes := ["nested_dir/"]
             isTruncated := false }]
      "../../dir/"
    = .ok [⟨"file", 123, 5, false⟩, ⟨"other_file", 456, 6, false⟩,
           ⟨"nested_dir", 4096, 1, true⟩] := by decide

/-! ## Stat prefix matching (C10) -/

/-- Claim C10, counterexample.  With the sole stored key `home/di/x/` and a path
translating to the strict prefix `home/di/` (itself not a stored key), `Stat`
does succeed, with size and modification time from that first stored object —
but the reported name is `home/di`, not the translated path `home/di/`: the
matched key ends in the separator, so the trailing separator is stripped from
the name.  The claim's "name is the translated path" is therefore false as
stated. -/
theorem stat_prefix_match_cex :
    (TranslatePath "" "home" "di/").1 = "home/di/"
    ∧ strHasPrefix "home/di/x/" "home/di/" = true
    ∧ "home/di/x/" ≠ "home/di/"
    ∧ Stat (storeApi [⟨"home/di/x/", 5, 7⟩]) ⟨"bucket", "", "home"⟩ "di/"
        = .ok { name := "home/di", size := 5, mtime := 7, isDir := true }
    ∧ "home/di" ≠ "home/di/" := by
  decide

/-- Claim C10, amended.  For every path whose translated key has a match among
the stored keys by string prefix (in particular a strict prefix of some stored
key that is itself not stored), `Stat` over the modelled store succeeds rather
than returning NotFound, taking size and modification time from the first
stored object under that prefix; the reported name is the translated path,
except that its trailing separators are stripped when the matched key ends
with the separator (and the entry is then marked a directory). -/
theorem stat_prefix_match (objects : List S3Object) (d : S3Driver) (path : String)
    (hstrict : ∃ o ∈ objects,
      strHasPrefix o.key (TranslatePath d.pfx d.homePath path).1 = true
      ∧ o.key ≠ (TranslatePath d.pfx d.homePath path).1)
    (_hnotstored : ∀ o ∈ objects, o.key ≠ (TranslatePath d.pfx d.homePath path).1) :
    ∃ o rest,
      objects.filter
        (fun o => strHasPrefix o.key (TranslatePath d.pfx d.homePath path).1) = o :: rest
      ∧ Stat (storeApi objects) d path = .ok
          { name := if strHasSuffix o.key "/"
                    then strTrimRightSlash (TranslatePath d.pfx d.homePath path).1
                    else (TranslatePath d.pfx d.homePath path).1
            size := o.size
            mtime := o.lastModified
            isDir := strHasSuffix o.key "/" } := by
  obtain ⟨w, hwmem, hwpre, -⟩ := hstrict
  rcases hf : objects.filter
      (fun o => strHasPrefix o.key (TranslatePath d.pfx d.homePath path).1) with _ | ⟨o0, rest⟩
  · exfalso
    have : w ∈ objects.filter
        (fun o => strHasPrefix o.key (TranslatePath d.pfx d.homePath path).1) :=
      List.mem_filter.mpr ⟨hwmem, hwpre⟩
    rw [hf] at this
    simp at this
  · refine ⟨o0, rest, hf, ?_⟩
    have hlist : (storeApi objects).listObjectsV2
        { bucket := d.bucket, pfx := (TranslatePath d.pfx d.homePath path).1,
          maxKeys := some 1 }
        = .ok { keyCount :=
                  ((objects.filter
                    (fun o => strHasPrefix o.key
                      (TranslatePath d.pfx d.homePath path).1)).take 1).length
                contents :=
                  (objects.filter
                    (fun o => strHasPrefix o.key
                      (TranslatePath d.pfx d.homePath path).1)).take 1 } := rfl
    rw [hf] at hlist
    have hlist2 : (storeApi objects).listObjectsV2
        { bucket := d.bucket, pfx := (TranslatePath d.pfx d.homePath path).1,
          maxKeys := some 1 }
        = .ok { keyCount := 1, contents := [o0] } := hlist
    rw [Stat_eq, hlist2]
    rfl

/-- Witness for the amended C10: a stored key strictly below the translated
key makes `Stat` succeed with that object's metadata. -/
theorem stat_prefix_match_witness :
    ∃ o rest,
      ([(⟨"home/dir/file", 123, 5⟩ : S3Object)].filter
        (fun o2 => strHasPrefix o2.key (TranslatePath "" "home" "dir").1)) = o :: rest
      ∧ Stat (storeApi [⟨"home/dir/file", 123, 5⟩]) ⟨"bucket", "", "home"⟩ "dir" = .ok
          { name := if strHasSuffix o.key "/"
                    then strTrimRightSlash (TranslatePath "" "home" "dir").1
                    else (TranslatePath "" "home" "dir").1
            size := o.size
            mtime := o.lastModified
            isDir := strHasSuffix o.key "/" } :=
  stat_prefix_match [⟨"home/dir/file", 123, 5⟩] ⟨"bucket", "", "home"⟩ "dir"
    ⟨⟨"home/dir/file", 123, 5⟩, by decide⟩ (by decide)

end SftpS3
